import Mathlib

/-!
Shallow embedding of the dbgtools-hexdump library (src/src/lib.rs).

The library renders a byte buffer as a sequence of hex-dump rows, delivered
to a caller-supplied sink closure.  We embed the sink-call sequence as a
list of `Row` values: the i-th list element is the argument triple of the
i-th sink invocation.
-/

/-- A byte, as Rust's u8. -/
abbrev Byte := Fin 256

/-- The number of values of a 64-bit `usize`: the running offset of
`hexdump_buf` is a `usize` and wraps modulo this in release builds. -/
def USIZE : Nat :=
  2 ^ 64

theorem USIZE_pos : 0 < USIZE := by
  norm_num [USIZE]

/-- `Config` (lib.rs lines 62-70): `cols` is the number of columns,
`offs` the base offset.  Both are `usize` in the source. -/
structure Config where
  cols : Nat
  offs : Nat
deriving DecidableEq

/-- `Config::default()` (lib.rs lines 72-76): 16 columns, offset 0. -/
def Config.default : Config :=
  { cols := 16, offs := 0 }

/-- Embedding of `<[u8]>::chunks` used at lib.rs line 136, written with an
explicit fuel argument so that the recursion is structural.  `fuel` bounds
the number of chunks produced; `chunks` below supplies `l.length`, which is
enough whenever `n > 0` (Rust's `chunks` panics on `n == 0`; `hexdump_buf`
guards that case before calling it, so the `n = 0` branch here is
unreachable from the embedded `hexdump_buf`). -/
def chunksF (n : Nat) : Nat → List α → List (List α)
  | _, [] => []
  | 0, _ :: _ => []
  | fuel + 1, a :: as =>
    if n = 0 then [a :: as]
    else (a :: as).take n :: chunksF n fuel ((a :: as).drop n)

/-- `l.chunks(n)` as a list of chunks: consecutive runs of at most `n`
elements, the last possibly shorter. -/
def chunks (n : Nat) (l : List α) : List (List α) :=
  chunksF n l.length l

/-- The character Rust's `{:02x}` formatting uses for one hex digit
`n < 16`: `0`-`9` then lowercase `a`-`f`. -/
def hexDigitChar (n : Nat) : Char :=
  if n < 10 then Char.ofNat (48 + n) else Char.ofNat (87 + n)

/-- Embedding of `format!("{:02x}", byte)` (lib.rs line 143) for a byte:
always exactly two lowercase hex digits. -/
def fmt02x (b : Byte) : String :=
  String.mk [hexDigitChar (b.val / 16), hexDigitChar (b.val % 16)]

/-- The ascii-column character for one byte (lib.rs lines 145-149):
`.` for bytes below 0x20 or above 0x7e, the byte's own character
otherwise. -/
def asciiChar (b : Byte) : Char :=
  if b.val < 0x20 ∨ 0x7e < b.val then '.' else Char.ofNat b.val

/-- Embedding of `Vec::<String>::join(" ")` (lib.rs line 163). -/
def joinSpace : List String → String
  | [] => ""
  | [s] => s
  | s :: rest => s ++ " " ++ joinSpace rest

/-- One sink invocation's arguments (lib.rs line 165):
`f(this_offs, &hex_str, &ascii)`. -/
structure Row where
  offs : Nat
  hex : String
  ascii : String
deriving DecidableEq

/-- The row built for one chunk `block` of the buffer (lib.rs lines
137-165): hex values of the block's bytes, then `cols - block.len()`
two-space pads, joined by single spaces; ascii characters of the block's
bytes followed by one pad space per missing byte. -/
def renderRow (cols offs : Nat) (block : List Byte) : Row :=
  { offs := offs
    hex := joinSpace (block.map fmt02x ++ List.replicate (cols - block.length) "  ")
    ascii := String.mk (block.map asciiChar ++ List.replicate (cols - block.length) ' ') }

/-- The `for block in buf.chunks(cfg.cols)` loop of `hexdump_buf`
(lib.rs lines 136-166): `offs` is the running `usize` offset, advanced by
`offset += 1` once per byte of each block (line 151).  Release builds wrap
on overflow, so the offset after a block is taken modulo `USIZE` (the
per-byte wraps compose to one modulo for a starting offset below
`USIZE`). -/
def hexdumpLoop (cols : Nat) : Nat → List (List Byte) → List Row
  | _, [] => []
  | offs, block :: rest =>
    renderRow cols offs block :: hexdumpLoop cols ((offs + block.length) % USIZE) rest

/-- `hexdump_buf` (lib.rs lines 120-167): returns the list of sink
invocations in order.  `cols == 0` returns immediately (lines 127-130). -/
def hexdump_buf (cfg : Config) (buf : List Byte) : List Row :=
  if cfg.cols = 0 then []
  else hexdumpLoop cfg.cols cfg.offs (chunks cfg.cols buf)

/-- Abstract model of a Rust `Sized` value: it is represented by the bytes
of its in-memory representation (`size_of::<T>()` bytes). -/
structure SizedValue where
  bytes : List Byte

/-- `asbuf` (lib.rs lines 51-59): view a `Sized` value as its raw bytes. -/
def asbuf (v : SizedValue) : List Byte :=
  v.bytes

/-- `hexdump` (lib.rs lines 96-105): `let buf = asbuf(buf); hexdump_buf(cfg, buf, f)`. -/
def hexdump (cfg : Config) (v : SizedValue) : List Row :=
  hexdump_buf cfg (asbuf v)

/-! ### Panic-aware variant

Rust has three potential panic sites inside `hexdump_buf`: `chunks(0)`
panics on a zero chunk size; the `offset += 1` increment (line 151)
panics on usize overflow in debug builds — reachable when `cfg.offs` is
near `usize::MAX` and the buffer is non-empty; and `cfg.cols - vals.len()`
(line 154) panics on usize underflow in debug builds.  The checked
variant returns `none` where the Rust code (under debug, i.e.
overflow-checked, arithmetic) would panic, while `hexdump_buf` above
keeps release (wrapping) semantics. -/

/-- Checked `usize` subtraction: `none` models the debug-build underflow
panic of `cfg.cols - vals.len()` (lib.rs line 154). -/
def checkedSub (a b : Nat) : Option Nat :=
  if b ≤ a then some (a - b) else none

/-- Checked advance of the running offset over one block: the per-byte
`offset += 1` (lib.rs line 151) panics in debug builds as soon as the
offset would exceed `usize::MAX`, i.e. iff `a + b ≥ USIZE`. -/
def checkedAdd (a b : Nat) : Option Nat :=
  if a + b < USIZE then some (a + b) else none

/-- Checked `<[u8]>::chunks`: Rust panics when the chunk size is 0. -/
def chunksChecked (n : Nat) (l : List α) : Option (List (List α)) :=
  if n = 0 then none else some (chunks n l)

/-- `renderRow` with the subtraction of lib.rs line 154 checked. -/
def renderRowChecked (cols offs : Nat) (block : List Byte) : Option Row :=
  (checkedSub cols block.length).map fun rem =>
    { offs := offs
      hex := joinSpace (block.map fmt02x ++ List.replicate rem "  ")
      ascii := String.mk (block.map asciiChar ++ List.replicate rem ' ') }

/-- The dump loop with checked row rendering and checked offset
arithmetic: a debug-build panic anywhere (offset increment overflow or
padding-count underflow) collapses the whole run to `none`. -/
def hexdumpLoopChecked (cols : Nat) : Nat → List (List Byte) → Option (List Row)
  | _, [] => some []
  | offs, block :: rest =>
    (renderRowChecked cols offs block).bind fun r =>
      (checkedAdd offs block.length).bind fun offs2 =>
        (hexdumpLoopChecked cols offs2 rest).map fun rs => r :: rs

/-- `hexdump_buf` with both panic sites checked: `none` would mean a
panic. -/
def hexdump_bufChecked (cfg : Config) (buf : List Byte) : Option (List Row) :=
  if cfg.cols = 0 then some []
  else (chunksChecked cfg.cols buf).bind fun cs =>
    hexdumpLoopChecked cfg.cols cfg.offs cs

/-! ### Specification-side definitions

These are written from the spec's words, to be compared with the
code-derived definitions above. -/

/-- Spec side: a lowercase hexadecimal digit character. -/
def IsLowerHexDigit (c : Char) : Prop :=
  (48 ≤ c.toNat ∧ c.toNat ≤ 57) ∨ (97 ≤ c.toNat ∧ c.toNat ≤ 102)

instance (c : Char) : Decidable (IsLowerHexDigit c) := by
  unfold IsLowerHexDigit
  infer_instance

/-- Spec side: the numeric value of a lowercase hex digit character. -/
def hexCharVal (c : Char) : Nat :=
  if c.toNat ≤ 57 then c.toNat - 48 else c.toNat - 87

/-- Spec side (claim C4): bytes in the printable range 0x20-0x7e render as
their own character, every other byte as a dot. -/
def asciiSpecChar (b : Byte) : Char :=
  if 0x20 ≤ b.val ∧ b.val ≤ 0x7e then Char.ofNat b.val else '.'

/-! ### Chunking lemmas -/

/-- The chunk lengths of a buffer sum to the buffer's length. -/
theorem chunksF_sum (n : Nat) (fuel : Nat) :
    ∀ l : List α, l.length ≤ fuel →
      ((chunksF n fuel l).map List.length).sum = l.length := by
  induction fuel with
  | zero =>
    intro l hl
    have : l = [] := List.eq_nil_of_length_eq_zero (by omega)
    subst this
    simp [chunksF]
  | succ fuel ih =>
    intro l hl
    match l with
    | [] => simp [chunksF]
    | a :: as =>
      rw [chunksF]
      by_cases hn : n = 0
      · simp [hn]
      · rw [if_neg hn]
        simp only [List.map_cons, List.sum_cons]
        rw [ih _ (by simp [List.length_drop] at *; omega)]
        simp [List.length_take, List.length_drop]
        omega

/-- The number of chunks is the ceiling of `length / n` for `n > 0`. -/
theorem chunksF_length (n : Nat) (hn : 0 < n) (fuel : Nat) :
    ∀ l : List α, l.length ≤ fuel →
      (chunksF n fuel l).length = (l.length + n - 1) / n := by
  induction fuel with
  | zero =>
    intro l hl
    have : l = [] := List.eq_nil_of_length_eq_zero (by omega)
    subst this
    simp [chunksF]
    rw [Nat.div_eq_of_lt (by omega)]
  | succ fuel ih =>
    intro l hl
    match l with
    | [] =>
      simp [chunksF]
      rw [Nat.div_eq_of_lt (by omega)]
    | a :: as =>
      rw [chunksF, if_neg (by omega)]
      rw [List.length_cons, ih _ (by simp [List.length_drop] at *; omega)]
      simp only [List.length_drop, List.length_cons]
      rcases le_or_lt n as.length with hle | hlt
      · have e1 : as.length + 1 - n + n - 1 = as.length := by omega
        have e2 : as.length + 1 + n - 1 = as.length + n := by omega
        rw [e1, e2, Nat.add_div_right _ hn]
      · have e1 : as.length + 1 - n + n - 1 = n - 1 := by omega
        have e2 : as.length + 1 + n - 1 = as.length + n := by omega
        rw [e1, e2, Nat.div_eq_of_lt (show n - 1 < n by omega),
            Nat.add_div_right _ hn, Nat.div_eq_of_lt hlt]

/-- Every chunk has at most `n` elements (for `n > 0`). -/
theorem chunksF_mem_le (n : Nat) (hn : 0 < n) (fuel : Nat) :
    ∀ (l : List α) (b : List α), b ∈ chunksF n fuel l → b.length ≤ n := by
  induction fuel with
  | zero =>
    intro l b hb
    match l with
    | [] => simp [chunksF] at hb
    | _ :: _ => simp [chunksF] at hb
  | succ fuel ih =>
    intro l b hb
    match l with
    | [] => simp [chunksF] at hb
    | a :: as =>
      rw [chunksF, if_neg (by omega)] at hb
      rcases List.mem_cons.mp hb with rfl | hb
      · simp [List.length_take]
      · exact ih _ b hb

/-- No chunk is empty (for `n > 0`). -/
theorem chunksF_ne_nil (n : Nat) (hn : 0 < n) (fuel : Nat) :
    ∀ (l : List α) (b : List α), b ∈ chunksF n fuel l → b ≠ [] := by
  induction fuel with
  | zero =>
    intro l b hb
    match l with
    | [] => simp [chunksF] at hb
    | _ :: _ => simp [chunksF] at hb
  | succ fuel ih =>
    intro l b hb
    match l with
    | [] => simp [chunksF] at hb
    | a :: as =>
      rw [chunksF, if_neg (by omega)] at hb
      rcases List.mem_cons.mp hb with rfl | hb
      · match n with
        | n + 1 => simp [List.take_succ_cons]
      · exact ih _ b hb

/-- Concatenating the chunks gives back the original list. -/
theorem chunksF_join (n : Nat) (fuel : Nat) :
    ∀ l : List α, l.length ≤ fuel → (chunksF n fuel l).flatten = l := by
  induction fuel with
  | zero =>
    intro l hl
    have : l = [] := List.eq_nil_of_length_eq_zero (by omega)
    subst this
    simp [chunksF]
  | succ fuel ih =>
    intro l hl
    match l with
    | [] => simp [chunksF]
    | a :: as =>
      rw [chunksF]
      by_cases hn : n = 0
      · simp [hn]
      · rw [if_neg hn]
        rw [List.flatten_cons, ih _ (by simp [List.length_drop] at *; omega)]
        exact List.take_append_drop n (a :: as)

/-- The first `i` chunks are all full (have exactly `n` elements) whenever
chunk `i` exists: their lengths sum to `i * n`. -/
theorem chunksF_take_sum (n : Nat) (hn : 0 < n) (fuel : Nat) :
    ∀ (l : List α) (i : Nat), i < (chunksF n fuel l).length →
      (((chunksF n fuel l).take i).map List.length).sum = i * n := by
  induction fuel with
  | zero =>
    intro l i hi
    match l with
    | [] => simp [chunksF] at hi
    | _ :: _ => simp [chunksF] at hi
  | succ fuel ih =>
    intro l i hi
    match l with
    | [] => simp [chunksF] at hi
    | a :: as =>
      rw [chunksF, if_neg (by omega)] at hi ⊢
      match i with
      | 0 => simp
      | i + 1 =>
        rw [List.length_cons] at hi
        have hrest : i < (chunksF n fuel ((a :: as).drop n)).length := by omega
        rw [List.take_succ_cons, List.map_cons, List.sum_cons, ih _ i hrest]
        have hne : (a :: as).drop n ≠ [] := by
          intro h0
          rw [h0] at hrest
          simp [chunksF] at hrest
        have hlen : n ≤ as.length := by
          by_contra hcon
          apply hne
          have : (a :: as).length ≤ n := by simp; omega
          exact List.drop_eq_nil_of_le this
        have htake : ((a :: as).take n).length = n := by
          simp [List.length_take]
          omega
        rw [htake, Nat.succ_mul]
        omega

/-- Length of the loop output: one row per chunk. -/
theorem hexdumpLoop_length (cols : Nat) (bs : List (List Byte)) :
    ∀ offs : Nat, (hexdumpLoop cols offs bs).length = bs.length := by
  induction bs with
  | nil => intro offs; rfl
  | cons b rest ih =>
    intro offs
    rw [hexdumpLoop, List.length_cons, List.length_cons, ih]

/-- The `i`-th row of the loop output for a starting offset below
`USIZE`: rendered from the `i`-th block, at the wrapped offset `offs`
plus the total length of the blocks before it, modulo `USIZE`. -/
theorem hexdumpLoop_getElem?_mod (cols : Nat) (bs : List (List Byte)) :
    ∀ (offs i : Nat), offs < USIZE →
      (hexdumpLoop cols offs bs)[i]? =
        (bs[i]?).map fun b =>
          renderRow cols ((offs + ((bs.take i).map List.length).sum) % USIZE) b := by
  induction bs with
  | nil => intro offs i _; simp [hexdumpLoop]
  | cons b rest ih =>
    intro offs i ho
    match i with
    | 0 =>
      simp [hexdumpLoop]
      rw [Nat.mod_eq_of_lt ho]
    | i + 1 =>
      rw [hexdumpLoop]
      simp only [List.getElem?_cons_succ, List.take_succ_cons, List.map_cons,
        List.sum_cons]
      rw [ih ((offs + b.length) % USIZE) i (Nat.mod_lt _ USIZE_pos)]
      have harg : ∀ bb : List Byte,
          renderRow cols (((offs + b.length) % USIZE + ((rest.take i).map List.length).sum) % USIZE) bb
            = renderRow cols ((offs + (b.length + ((rest.take i).map List.length).sum)) % USIZE) bb := by
        intro bb
        rw [Nat.mod_add_mod, Nat.add_assoc]
      simp only [harg]

/-- Each emitted row is its block rendered at some offset: the hex and
ascii fields of a row do not depend on the running offset. -/
theorem hexdumpLoop_get_exists (cols : Nat) (bs : List (List Byte)) :
    ∀ (offs i : Nat) (hi : i < (hexdumpLoop cols offs bs).length) (hb : i < bs.length),
      ∃ o : Nat, (hexdumpLoop cols offs bs).get ⟨i, hi⟩ = renderRow cols o (bs.get ⟨i, hb⟩) := by
  induction bs with
  | nil =>
    intro offs i hi hb
    exact absurd hb (by simp)
  | cons b rest ih =>
    intro offs i hi hb
    match i with
    | 0 => exact ⟨offs, rfl⟩
    | i + 1 =>
      have hi2 : i < (hexdumpLoop cols ((offs + b.length) % USIZE) rest).length := by
        rw [hexdumpLoop, List.length_cons] at hi
        omega
      have hb2 : i < rest.length := by
        rw [List.length_cons] at hb
        omega
      obtain ⟨o, ho⟩ := ih ((offs + b.length) % USIZE) i hi2 hb2
      exact ⟨o, ho⟩

/-- `chunks`: chunk lengths sum to the list length. -/
theorem chunks_sum (n : Nat) (l : List α) :
    ((chunks n l).map List.length).sum = l.length :=
  chunksF_sum n l.length l (Nat.le_refl _)

/-- `chunks`: the number of chunks is `ceil (length / n)` for `n > 0`. -/
theorem chunks_length_eq (n : Nat) (hn : 0 < n) (l : List α) :
    (chunks n l).length = (l.length + n - 1) / n :=
  chunksF_length n hn l.length l (Nat.le_refl _)

/-- `chunks`: every chunk has at most `n` elements for `n > 0`. -/
theorem chunks_mem_le (n : Nat) (hn : 0 < n) (l b : List α) (hb : b ∈ chunks n l) :
    b.length ≤ n :=
  chunksF_mem_le n hn l.length l b hb

/-- `chunks`: no chunk is empty for `n > 0`. -/
theorem chunks_ne_nil (n : Nat) (hn : 0 < n) (l b : List α) (hb : b ∈ chunks n l) :
    b ≠ [] :=
  chunksF_ne_nil n hn l.length l b hb

/-- `chunks`: the chunks concatenate back to the list. -/
theorem chunks_flatten (n : Nat) (l : List α) : (chunks n l).flatten = l :=
  chunksF_join n l.length l (Nat.le_refl _)

/-- `chunks`: the lengths of the first `i` chunks sum to `i * n` whenever
chunk `i` exists. -/
theorem chunks_take_sum (n : Nat) (hn : 0 < n) (l : List α) (i : Nat)
    (hi : i < (chunks n l).length) :
    (((chunks n l).take i).map List.length).sum = i * n :=
  chunksF_take_sum n hn l.length l i hi

/-- Every chunk except the last is full: chunk `i` has exactly `n` elements
when a chunk `i + 1` exists. -/
theorem chunks_get_length_full (n : Nat) (hn : 0 < n) (l : List α) (i : Nat)
    (h1 : i + 1 < (chunks n l).length) (hc : i < (chunks n l).length) :
    ((chunks n l).get ⟨i, hc⟩).length = n := by
  have t1 := chunks_take_sum n hn l (i + 1) h1
  have t0 := chunks_take_sum n hn l i (by omega)
  rw [List.take_succ, List.getElem?_eq_getElem hc] at t1
  simp only [Option.toList_some, List.map_append, List.sum_append,
    List.map_cons, List.map_nil, List.sum_cons, List.sum_nil] at t1
  rw [t0, Nat.succ_mul] at t1
  have hsame : (chunks n l).get ⟨i, hc⟩ = (chunks n l)[i] := rfl
  rw [hsame]
  omega

/-- Unfolding `hexdump_buf` for a nonzero column count. -/
theorem hexdump_buf_eq_loop (cfg : Config) (buf : List Byte) (h : cfg.cols ≠ 0) :
    hexdump_buf cfg buf = hexdumpLoop cfg.cols cfg.offs (chunks cfg.cols buf) := by
  rw [hexdump_buf, if_neg h]

/-- One row per chunk. -/
theorem hexdump_buf_length_eq_chunks (cfg : Config) (buf : List Byte)
    (h : cfg.cols ≠ 0) :
    (hexdump_buf cfg buf).length = (chunks cfg.cols buf).length := by
  rw [hexdump_buf_eq_loop cfg buf h, hexdumpLoop_length]

/-- The `i`-th emitted row is the `i`-th chunk rendered at some offset
(the hex and ascii fields do not depend on it). -/
theorem hexdump_buf_get_exists (cfg : Config) (buf : List Byte) (h : cfg.cols ≠ 0)
    (i : Nat) (hi : i < (hexdump_buf cfg buf).length)
    (hc : i < (chunks cfg.cols buf).length) :
    ∃ o : Nat, (hexdump_buf cfg buf).get ⟨i, hi⟩ =
      renderRow cfg.cols o ((chunks cfg.cols buf).get ⟨i, hc⟩) := by
  have hi2 : i < (hexdumpLoop cfg.cols cfg.offs (chunks cfg.cols buf)).length := by
    rw [← hexdump_buf_eq_loop cfg buf h]
    exact hi
  obtain ⟨o, ho⟩ :=
    hexdumpLoop_get_exists cfg.cols (chunks cfg.cols buf) cfg.offs i hi2 hc
  refine ⟨o, ?_⟩
  have h2 : (hexdump_buf cfg buf)[i]?
      = (hexdumpLoop cfg.cols cfg.offs (chunks cfg.cols buf))[i]? := by
    rw [hexdump_buf_eq_loop cfg buf h]
  rw [List.getElem?_eq_getElem hi, List.getElem?_eq_getElem hi2] at h2
  exact (Option.some.inj h2).trans ho

/-- The `i`-th emitted row is the `i`-th chunk rendered at offset
`cfg.offs + i * cfg.cols`, provided the running usize offset cannot wrap
(`cfg.offs + buf.length ≤ USIZE`: every emitted offset is then below
`USIZE`). -/
theorem hexdump_buf_get_offs (cfg : Config) (buf : List Byte) (h : cfg.cols ≠ 0)
    (hov : cfg.offs + buf.length ≤ USIZE)
    (i : Nat) (hi : i < (hexdump_buf cfg buf).length)
    (hc : i < (chunks cfg.cols buf).length) :
    (hexdump_buf cfg buf).get ⟨i, hi⟩ =
      renderRow cfg.cols (cfg.offs + i * cfg.cols)
        ((chunks cfg.cols buf).get ⟨i, hc⟩) := by
  have hbuf_ne : buf ≠ [] := by
    intro h0
    subst h0
    simp [chunks, chunksF] at hc
  have hblen : 0 < buf.length := List.length_pos.mpr hbuf_ne
  have ho : cfg.offs < USIZE := by omega
  -- the first i chunks sum to i * cols, and chunk i is nonempty, so
  -- i * cols < buf.length and the emitted offset does not wrap
  have htake := chunks_take_sum cfg.cols (by omega) buf i hc
  have hchunk_ne : ((chunks cfg.cols buf).get ⟨i, hc⟩) ≠ [] :=
    chunks_ne_nil cfg.cols (by omega) buf _ (List.get_mem _ _ hc)
  have hchunk_pos : 0 < ((chunks cfg.cols buf).get ⟨i, hc⟩).length :=
    List.length_pos.mpr hchunk_ne
  have hstep : (((chunks cfg.cols buf).take (i + 1)).map List.length).sum
      = i * cfg.cols + ((chunks cfg.cols buf).get ⟨i, hc⟩).length := by
    rw [List.take_succ, List.getElem?_eq_getElem hc]
    simp only [Option.toList_some, List.map_append, List.sum_append,
      List.map_cons, List.map_nil, List.sum_cons, List.sum_nil]
    rw [htake]
    rfl
  have hbound : (((chunks cfg.cols buf).take (i + 1)).map List.length).sum
      ≤ buf.length := by
    have hfull := chunks_sum cfg.cols buf
    have hsplit := congrArg (fun t => (t.map List.length).sum)
      (List.take_append_drop (i + 1) (chunks cfg.cols buf))
    simp only [List.map_append, List.sum_append] at hsplit
    omega
  have hoffs_lt : cfg.offs + i * cfg.cols < USIZE := by omega
  have h1 := hexdumpLoop_getElem?_mod cfg.cols (chunks cfg.cols buf) cfg.offs i ho
  rw [← hexdump_buf_eq_loop cfg buf h] at h1
  rw [List.getElem?_eq_getElem hi, List.getElem?_eq_getElem hc] at h1
  simp only [Option.map_some'] at h1
  rw [List.get_eq_getElem, List.get_eq_getElem]
  rw [Option.some_inj] at h1
  rw [h1, htake, Nat.mod_eq_of_lt hoffs_lt]

/-! ### Formatting lemmas -/

/-- Building a string from a character list gives a string of that
length. -/
theorem stringMk_length (l : List Char) : (String.mk l).length = l.length :=
  rfl

/-- `hexDigitChar` over `Fin 16`: always a lowercase hex digit, decoding
back to its input. -/
theorem hexDigitChar_fin_spec :
    ∀ m : Fin 16,
      IsLowerHexDigit (hexDigitChar m.val) ∧ hexCharVal (hexDigitChar m.val) = m.val := by
  decide

/-- `hexDigitChar n` for `n < 16` is a lowercase hex digit that decodes
back to `n`. -/
theorem hexDigitChar_spec (n : Nat) (h : n < 16) :
    IsLowerHexDigit (hexDigitChar n) ∧ hexCharVal (hexDigitChar n) = n := by
  simpa using hexDigitChar_fin_spec ⟨n, h⟩

/-- `fmt02x` always produces exactly two characters. -/
theorem fmt02x_length (b : Byte) : (fmt02x b).length = 2 :=
  rfl

/-- `fmt02x b` is the two-digit lowercase hexadecimal representation of
`b`: two lowercase hex digit characters whose base-16 value is `b`. -/
theorem fmt02x_spec (b : Byte) :
    ∃ c1 c2 : Char, (fmt02x b).data = [c1, c2] ∧ IsLowerHexDigit c1 ∧
      IsLowerHexDigit c2 ∧ hexCharVal c1 * 16 + hexCharVal c2 = b.val := by
  have hb : b.val < 256 := b.isLt
  have h1 := hexDigitChar_spec (b.val / 16) (by omega)
  have h2 := hexDigitChar_spec (b.val % 16) (by omega)
  refine ⟨hexDigitChar (b.val / 16), hexDigitChar (b.val % 16), rfl, h1.1, h2.1, ?_⟩
  rw [h1.2, h2.2]
  omega

/-- The code's ascii character (lib.rs lines 145-149) agrees with the
spec's description (printable range 0x20-0x7e as itself, dot otherwise). -/
theorem asciiChar_eq_spec (b : Byte) : asciiChar b = asciiSpecChar b := by
  rw [asciiChar, asciiSpecChar]
  by_cases h : b.val < 0x20 ∨ 0x7e < b.val
  · rw [if_pos h, if_neg (by omega)]
  · rw [if_neg h, if_pos (by omega)]

/-- Length of a space-join of two-character strings: `3 * count - 1`. -/
theorem joinSpace_length (gs : List String) (h2 : ∀ s ∈ gs, s.length = 2)
    (hne : gs ≠ []) :
    (joinSpace gs).length = 3 * gs.length - 1 := by
  induction gs with
  | nil => exact absurd rfl hne
  | cons s rest ih =>
    cases rest with
    | nil =>
      have hs := h2 s (by simp)
      show s.length = 3 * [s].length - 1
      simp [hs]
    | cons t ts =>
      show (s ++ " " ++ joinSpace (t :: ts)).length = 3 * (s :: t :: ts).length - 1
      rw [String.length_append, String.length_append,
        ih (fun u hu => h2 u (by simp [hu])) (by simp)]
      have hs := h2 s (by simp)
      have hsp : (" " : String).length = 1 := rfl
      rw [hs, hsp]
      simp only [List.length_cons]
      omega

/-! ### Claim theorems -/

/-- C1: for every byte sequence and every configuration with `cols > 0`,
`hexdump_buf` invokes the sink exactly `ceil (len / cols)` times, the
per-row consumed byte counts (the chunk lengths) sum to the input length,
and empty input produces zero sink invocations. -/
theorem hexdump_buf_row_count (cfg : Config) (buf : List Byte) (h : 0 < cfg.cols) :
    (hexdump_buf cfg buf).length = (buf.length + cfg.cols - 1) / cfg.cols
    ∧ ((chunks cfg.cols buf).map List.length).sum = buf.length
    ∧ (buf = [] → hexdump_buf cfg buf = []) := by
  refine ⟨?_, chunks_sum _ _, ?_⟩
  · rw [hexdump_buf_length_eq_chunks cfg buf (by omega), chunks_length_eq cfg.cols h]
  · intro he
    subst he
    rw [hexdump_buf_eq_loop cfg [] (by omega)]
    rfl

/-- Witness for C1 at `cols = 4`, `offs = 0`, a 10-byte input. -/
theorem hexdump_buf_row_count_witness :
    (hexdump_buf { cols := 4, offs := 0 } [1, 2, 3, 4, 5, 6, 7, 8, 9, 10]).length
        = (([1, 2, 3, 4, 5, 6, 7, 8, 9, 10] : List Byte).length + ({ cols := 4, offs := 0 } : Config).cols - 1)
            / ({ cols := 4, offs := 0 } : Config).cols
    ∧ ((chunks ({ cols := 4, offs := 0 } : Config).cols ([1, 2, 3, 4, 5, 6, 7, 8, 9, 10] : List Byte)).map List.length).sum
        = ([1, 2, 3, 4, 5, 6, 7, 8, 9, 10] : List Byte).length
    ∧ (([1, 2, 3, 4, 5, 6, 7, 8, 9, 10] : List Byte) = []
        → hexdump_buf { cols := 4, offs := 0 } [1, 2, 3, 4, 5, 6, 7, 8, 9, 10] = []) :=
  hexdump_buf_row_count { cols := 4, offs := 0 } [1, 2, 3, 4, 5, 6, 7, 8, 9, 10] (by decide)

/-- C2 as written is false on the code: the running offset is a `usize`
and wraps on overflow (release builds), so with `cols = 1`,
`offs = usize::MAX` and the two-byte input `[0, 0]` the second row's
offset wraps to `0`: the offsets are not `base + i * cols` and not
strictly increasing. -/
theorem hexdump_buf_offsets_counterexample :
    ¬ (∀ (i j : Nat)
        (hi : i < (hexdump_buf { cols := 1, offs := 2 ^ 64 - 1 } [0, 0]).length)
        (hj : j < (hexdump_buf { cols := 1, offs := 2 ^ 64 - 1 } [0, 0]).length), i < j →
        ((hexdump_buf { cols := 1, offs := 2 ^ 64 - 1 } [0, 0]).get ⟨i, hi⟩).offs
          < ((hexdump_buf { cols := 1, offs := 2 ^ 64 - 1 } [0, 0]).get ⟨j, hj⟩).offs) :=
  fun hmono =>
    absurd (hmono 0 1 (by decide) (by decide) (by decide)) (by decide)

/-- C2 amended: provided the running usize offset cannot wrap
(`cfg.offs + buf.length ≤ USIZE`), the emitted offsets start at `cfg.offs`
and follow the formula `offs + i * cols`; they are strictly increasing;
and each consecutive difference equals the number of real input bytes of
the prior row (its chunk's length). -/
theorem hexdump_buf_offsets (cfg : Config) (buf : List Byte) (h : 0 < cfg.cols)
    (hov : cfg.offs + buf.length ≤ USIZE) :
    (∀ (i : Nat) (hi : i < (hexdump_buf cfg buf).length),
        ((hexdump_buf cfg buf).get ⟨i, hi⟩).offs = cfg.offs + i * cfg.cols)
    ∧ (∀ (i j : Nat) (hi : i < (hexdump_buf cfg buf).length)
        (hj : j < (hexdump_buf cfg buf).length), i < j →
        ((hexdump_buf cfg buf).get ⟨i, hi⟩).offs
          < ((hexdump_buf cfg buf).get ⟨j, hj⟩).offs)
    ∧ (∀ (i : Nat) (h1 : i + 1 < (hexdump_buf cfg buf).length)
        (hi : i < (hexdump_buf cfg buf).length)
        (hc : i < (chunks cfg.cols buf).length),
        ((hexdump_buf cfg buf).get ⟨i + 1, h1⟩).offs
          = ((hexdump_buf cfg buf).get ⟨i, hi⟩).offs
            + ((chunks cfg.cols buf).get ⟨i, hc⟩).length) := by
  have hne : cfg.cols ≠ 0 := by omega
  have hformula : ∀ (i : Nat) (hi : i < (hexdump_buf cfg buf).length),
      ((hexdump_buf cfg buf).get ⟨i, hi⟩).offs = cfg.offs + i * cfg.cols := by
    intro i hi
    have hc : i < (chunks cfg.cols buf).length := by
      rw [← hexdump_buf_length_eq_chunks cfg buf hne]
      exact hi
    rw [hexdump_buf_get_offs cfg buf hne hov i hi hc]
    rfl
  refine ⟨hformula, ?_, ?_⟩
  · intro i j hi hj hij
    rw [hformula i hi, hformula j hj]
    have hmul : (i + 1) * cfg.cols ≤ j * cfg.cols :=
      Nat.mul_le_mul_right _ (by omega)
    rw [Nat.succ_mul] at hmul
    omega
  · intro i h1 hi hc
    have hc1 : i + 1 < (chunks cfg.cols buf).length := by
      rw [← hexdump_buf_length_eq_chunks cfg buf hne]
      exact h1
    rw [hformula (i + 1) h1, hformula i hi,
        chunks_get_length_full cfg.cols h buf i hc1 hc, Nat.succ_mul]
    omega

/-- Witness for C2 (amended) at `cols = 4`, `offs = 2`, a 10-byte input
(no overflow: `2 + 10 ≤ 2 ^ 64`). -/
theorem hexdump_buf_offsets_witness :
    (∀ (i : Nat) (hi : i < (hexdump_buf { cols := 4, offs := 2 } [1, 2, 3, 4, 5, 6, 7, 8, 9, 10]).length),
        ((hexdump_buf { cols := 4, offs := 2 } [1, 2, 3, 4, 5, 6, 7, 8, 9, 10]).get ⟨i, hi⟩).offs
          = ({ cols := 4, offs := 2 } : Config).offs + i * ({ cols := 4, offs := 2 } : Config).cols)
    ∧ (∀ (i j : Nat) (hi : i < (hexdump_buf { cols := 4, offs := 2 } [1, 2, 3, 4, 5, 6, 7, 8, 9, 10]).length)
        (hj : j < (hexdump_buf { cols := 4, offs := 2 } [1, 2, 3, 4, 5, 6, 7, 8, 9, 10]).length), i < j →
        ((hexdump_buf { cols := 4, offs := 2 } [1, 2, 3, 4, 5, 6, 7, 8, 9, 10]).get ⟨i, hi⟩).offs
          < ((hexdump_buf { cols := 4, offs := 2 } [1, 2, 3, 4, 5, 6, 7, 8, 9, 10]).get ⟨j, hj⟩).offs)
    ∧ (∀ (i : Nat) (h1 : i + 1 < (hexdump_buf { cols := 4, offs := 2 } [1, 2, 3, 4, 5, 6, 7, 8, 9, 10]).length)
        (hi : i < (hexdump_buf { cols := 4, offs := 2 } [1, 2, 3, 4, 5, 6, 7, 8, 9, 10]).length)
        (hc : i < (chunks ({ cols := 4, offs := 2 } : Config).cols ([1, 2, 3, 4, 5, 6, 7, 8, 9, 10] : List Byte)).length),
        ((hexdump_buf { cols := 4, offs := 2 } [1, 2, 3, 4, 5, 6, 7, 8, 9, 10]).get ⟨i + 1, h1⟩).offs
          = ((hexdump_buf { cols := 4, offs := 2 } [1, 2, 3, 4, 5, 6, 7, 8, 9, 10]).get ⟨i, hi⟩).offs
            + ((chunks ({ cols := 4, offs := 2 } : Config).cols ([1, 2, 3, 4, 5, 6, 7, 8, 9, 10] : List Byte)).get ⟨i, hc⟩).length) :=
  hexdump_buf_offsets { cols := 4, offs := 2 } [1, 2, 3, 4, 5, 6, 7, 8, 9, 10] (by decide)
    (by decide)

/-- C5: `cols == 0` is a no-op, not an error: zero sink invocations for any
input, including non-empty input and any base offset. -/
theorem hexdump_buf_zero_cols (cfg : Config) (buf : List Byte) (h : cfg.cols = 0) :
    hexdump_buf cfg buf = [] := by
  rw [hexdump_buf, if_pos h]

/-- Witness for C5 at `offs = 7` on a non-empty input. -/
theorem hexdump_buf_zero_cols_witness :
    hexdump_buf { cols := 0, offs := 7 } [1, 2, 3] = [] :=
  hexdump_buf_zero_cols { cols := 0, offs := 7 } [1, 2, 3] rfl

/-- C3: each row's hex field is the space-separated list of the chunk's
two-digit lowercase hex byte values followed by one two-space placeholder
per missing byte; every row's hex field has width `3 * cols - 1` and every
row's ascii field has width `cols`, regardless of chunk length; the ascii
field is right-padded with one space per missing byte (positions at and
beyond the chunk length hold a space); and `fmt02x` really is the
two-digit lowercase hexadecimal representation. -/
theorem hexdump_buf_row_format (cfg : Config) (buf : List Byte) (h : 0 < cfg.cols) :
    (∀ (i : Nat) (hi : i < (hexdump_buf cfg buf).length)
        (hc : i < (chunks cfg.cols buf).length),
        ((hexdump_buf cfg buf).get ⟨i, hi⟩).hex
            = joinSpace (((chunks cfg.cols buf).get ⟨i, hc⟩).map fmt02x
                ++ List.replicate (cfg.cols - ((chunks cfg.cols buf).get ⟨i, hc⟩).length) "  ")
          ∧ ((hexdump_buf cfg buf).get ⟨i, hi⟩).hex.length = 3 * cfg.cols - 1
          ∧ ((hexdump_buf cfg buf).get ⟨i, hi⟩).ascii.length = cfg.cols
          ∧ (∀ j : Nat, ((chunks cfg.cols buf).get ⟨i, hc⟩).length ≤ j → j < cfg.cols →
              ((hexdump_buf cfg buf).get ⟨i, hi⟩).ascii.data[j]? = some ' '))
    ∧ (∀ b : Byte, ∃ c1 c2 : Char, (fmt02x b).data = [c1, c2]
        ∧ IsLowerHexDigit c1 ∧ IsLowerHexDigit c2
        ∧ hexCharVal c1 * 16 + hexCharVal c2 = b.val) := by
  have hne : cfg.cols ≠ 0 := by omega
  refine ⟨?_, fmt02x_spec⟩
  intro i hi hc
  obtain ⟨o, ho⟩ := hexdump_buf_get_exists cfg buf hne i hi hc
  rw [ho]
  have hble : ((chunks cfg.cols buf).get ⟨i, hc⟩).length ≤ cfg.cols :=
    chunks_mem_le cfg.cols h buf _ (List.get_mem _ _ hc)
  have hglen : (((chunks cfg.cols buf).get ⟨i, hc⟩).map fmt02x
      ++ List.replicate (cfg.cols - ((chunks cfg.cols buf).get ⟨i, hc⟩).length) "  ").length
        = cfg.cols := by
    rw [List.length_append, List.length_map, List.length_replicate]
    omega
  have h2 : ∀ s ∈ ((chunks cfg.cols buf).get ⟨i, hc⟩).map fmt02x
      ++ List.replicate (cfg.cols - ((chunks cfg.cols buf).get ⟨i, hc⟩).length) "  ",
      s.length = 2 := by
    intro s hs
    rcases List.mem_append.mp hs with hs | hs
    · rcases List.mem_map.mp hs with ⟨b, _, rfl⟩
      exact fmt02x_length b
    · rw [List.eq_of_mem_replicate hs]
      rfl
  have hnil : ((chunks cfg.cols buf).get ⟨i, hc⟩).map fmt02x
      ++ List.replicate (cfg.cols - ((chunks cfg.cols buf).get ⟨i, hc⟩).length) "  " ≠ [] := by
    intro h0
    rw [h0] at hglen
    simp at hglen
    omega
  refine ⟨rfl, ?_, ?_, ?_⟩
  · show (joinSpace _).length = 3 * cfg.cols - 1
    rw [joinSpace_length _ h2 hnil, hglen]
  · show (String.mk _).length = cfg.cols
    rw [stringMk_length, List.length_append, List.length_map, List.length_replicate]
    omega
  · intro j hj1 hj2
    show (((chunks cfg.cols buf).get ⟨i, hc⟩).map asciiChar
        ++ List.replicate (cfg.cols - ((chunks cfg.cols buf).get ⟨i, hc⟩).length) ' ')[j]?
      = some ' '
    have hjm : (((chunks cfg.cols buf).get ⟨i, hc⟩).map asciiChar).length ≤ j := by
      rw [List.length_map]
      exact hj1
    rw [List.getElem?_append_right hjm, List.length_map]
    have hrep : j - ((chunks cfg.cols buf).get ⟨i, hc⟩).length
        < (List.replicate (cfg.cols - ((chunks cfg.cols buf).get ⟨i, hc⟩).length) ' ').length := by
      rw [List.length_replicate]
      omega
    rw [List.getElem?_eq_getElem hrep, List.getElem_replicate]

/-- Witness for C3 at `cols = 4`, `offs = 0`, a 6-byte input. -/
theorem hexdump_buf_row_format_witness :
    (∀ (i : Nat) (hi : i < (hexdump_buf { cols := 4, offs := 0 } [65, 0, 255, 66, 67, 68]).length)
        (hc : i < (chunks ({ cols := 4, offs := 0 } : Config).cols ([65, 0, 255, 66, 67, 68] : List Byte)).length),
        ((hexdump_buf { cols := 4, offs := 0 } [65, 0, 255, 66, 67, 68]).get ⟨i, hi⟩).hex
            = joinSpace (((chunks ({ cols := 4, offs := 0 } : Config).cols ([65, 0, 255, 66, 67, 68] : List Byte)).get ⟨i, hc⟩).map fmt02x
                ++ List.replicate (({ cols := 4, offs := 0 } : Config).cols
                    - ((chunks ({ cols := 4, offs := 0 } : Config).cols ([65, 0, 255, 66, 67, 68] : List Byte)).get ⟨i, hc⟩).length) "  ")
          ∧ ((hexdump_buf { cols := 4, offs := 0 } [65, 0, 255, 66, 67, 68]).get ⟨i, hi⟩).hex.length
              = 3 * ({ cols := 4, offs := 0 } : Config).cols - 1
          ∧ ((hexdump_buf { cols := 4, offs := 0 } [65, 0, 255, 66, 67, 68]).get ⟨i, hi⟩).ascii.length
              = ({ cols := 4, offs := 0 } : Config).cols
          ∧ (∀ j : Nat,
              ((chunks ({ cols := 4, offs := 0 } : Config).cols ([65, 0, 255, 66, 67, 68] : List Byte)).get ⟨i, hc⟩).length ≤ j →
              j < ({ cols := 4, offs := 0 } : Config).cols →
              ((hexdump_buf { cols := 4, offs := 0 } [65, 0, 255, 66, 67, 68]).get ⟨i, hi⟩).ascii.data[j]? = some ' '))
    ∧ (∀ b : Byte, ∃ c1 c2 : Char, (fmt02x b).data = [c1, c2]
        ∧ IsLowerHexDigit c1 ∧ IsLowerHexDigit c2
        ∧ hexCharVal c1 * 16 + hexCharVal c2 = b.val) :=
  hexdump_buf_row_format { cols := 4, offs := 0 } [65, 0, 255, 66, 67, 68] (by decide)

/-- C4: within each row, position `j` of the ascii field renders the
chunk's `j`-th byte as itself when it lies in `0x20..0x7e` and as a dot
otherwise; the chunks concatenate back to the input, so every input byte
is covered at its position. -/
theorem hexdump_buf_ascii_rendering (cfg : Config) (buf : List Byte) (h : 0 < cfg.cols) :
    (∀ (i : Nat) (hi : i < (hexdump_buf cfg buf).length)
        (hc : i < (chunks cfg.cols buf).length)
        (j : Nat) (hj : j < ((chunks cfg.cols buf).get ⟨i, hc⟩).length),
        ((hexdump_buf cfg buf).get ⟨i, hi⟩).ascii.data[j]?
          = some (asciiSpecChar (((chunks cfg.cols buf).get ⟨i, hc⟩).get ⟨j, hj⟩)))
    ∧ (chunks cfg.cols buf).flatten = buf := by
  have hne : cfg.cols ≠ 0 := by omega
  refine ⟨?_, chunks_flatten _ _⟩
  intro i hi hc j hj
  obtain ⟨o, ho⟩ := hexdump_buf_get_exists cfg buf hne i hi hc
  rw [ho]
  show (((chunks cfg.cols buf).get ⟨i, hc⟩).map asciiChar
      ++ List.replicate (cfg.cols - ((chunks cfg.cols buf).get ⟨i, hc⟩).length) ' ')[j]?
    = some (asciiSpecChar (((chunks cfg.cols buf).get ⟨i, hc⟩).get ⟨j, hj⟩))
  have hjm : j < (((chunks cfg.cols buf).get ⟨i, hc⟩).map asciiChar).length := by
    rw [List.length_map]
    exact hj
  rw [List.getElem?_append_left hjm, List.getElem?_map,
    List.getElem?_eq_getElem hj]
  simp only [Option.map_some']
  rw [asciiChar_eq_spec]
  rfl

/-- Witness for C4 at `cols = 4`, `offs = 0`, a 6-byte input. -/
theorem hexdump_buf_ascii_rendering_witness :
    (∀ (i : Nat) (hi : i < (hexdump_buf { cols := 4, offs := 0 } [65, 31, 32, 126, 127, 0]).length)
        (hc : i < (chunks ({ cols := 4, offs := 0 } : Config).cols ([65, 31, 32, 126, 127, 0] : List Byte)).length)
        (j : Nat) (hj : j < ((chunks ({ cols := 4, offs := 0 } : Config).cols ([65, 31, 32, 126, 127, 0] : List Byte)).get ⟨i, hc⟩).length),
        ((hexdump_buf { cols := 4, offs := 0 } [65, 31, 32, 126, 127, 0]).get ⟨i, hi⟩).ascii.data[j]?
          = some (asciiSpecChar (((chunks ({ cols := 4, offs := 0 } : Config).cols ([65, 31, 32, 126, 127, 0] : List Byte)).get ⟨i, hc⟩).get ⟨j, hj⟩)))
    ∧ (chunks ({ cols := 4, offs := 0 } : Config).cols ([65, 31, 32, 126, 127, 0] : List Byte)).flatten
        = ([65, 31, 32, 126, 127, 0] : List Byte) :=
  hexdump_buf_ascii_rendering { cols := 4, offs := 0 } [65, 31, 32, 126, 127, 0] (by decide)

/-- C6 as written is false on the code: for input `[1..8]`, `cols = 16`,
`offs = 0`, the hex field is not the claimed 55-character string of 8 hex
groups followed by 32 spaces. -/
theorem hexdump_buf_concrete_counterexample :
    ¬ (hexdump_buf { cols := 16, offs := 0 } [1, 2, 3, 4, 5, 6, 7, 8]
        = [{ offs := 0,
             hex := "01 02 03 04 05 06 07 08                                ",
             ascii := "........        " }]) := by
  decide

/-- C6 amended: for input `[1..8]`, `cols = 16`, `offs = 0`, the sink is
invoked exactly once, with offset 0, hex field equal to the 47-character
string of the 8 hex groups followed by 24 spaces (8 two-space placeholders
joined by single spaces), and ascii field of 8 dots followed by 8
spaces. -/
theorem hexdump_buf_concrete_scenario :
    hexdump_buf { cols := 16, offs := 0 } [1, 2, 3, 4, 5, 6, 7, 8]
      = [{ offs := 0,
           hex := "01 02 03 04 05 06 07 08                        ",
           ascii := "........        " }] := by
  decide

/-- The checked loop never fails when every block fits in `cols` columns
and the offset arithmetic stays below `USIZE`. -/
theorem hexdumpLoopChecked_eq_some (cols : Nat) (bs : List (List Byte))
    (hb : ∀ b ∈ bs, b.length ≤ cols) :
    ∀ offs : Nat, offs + (bs.map List.length).sum < USIZE →
      hexdumpLoopChecked cols offs bs = some (hexdumpLoop cols offs bs) := by
  induction bs with
  | nil => intro offs _; rfl
  | cons b rest ih =>
    intro offs hov
    simp only [List.map_cons, List.sum_cons] at hov
    have hadd : offs + b.length < USIZE := by omega
    have hmod : (offs + b.length) % USIZE = offs + b.length :=
      Nat.mod_eq_of_lt hadd
    rw [hexdumpLoopChecked, hexdumpLoop, renderRowChecked, checkedSub,
      if_pos (hb b (by simp)), checkedAdd, if_pos hadd]
    simp only [Option.map_some', Option.some_bind]
    rw [ih (fun u hu => hb u (by simp [hu])) (offs + b.length) (by omega), hmod]
    rfl

/-- C7 as written is false on the code under debug (overflow-checked)
builds: with `cols = 1`, `offs = usize::MAX` and the non-empty input
`[0]`, the `offset += 1` increment (lib.rs line 151) overflows and
panics, so the checked embedding returns `none` rather than the rendered
row list. -/
theorem hexdump_buf_infallible_counterexample :
    hexdump_bufChecked { cols := 1, offs := 2 ^ 64 - 1 } [0]
      ≠ some (hexdump_buf { cols := 1, offs := 2 ^ 64 - 1 } [0]) := by
  decide

/-- C7 amended: `hexdump_buf` completes normally with no failure result
for every configuration and input whose running offset cannot overflow
`usize` — `cols = 0` (guarded no-op), empty input, or
`base offset + input length < USIZE`; the panic-checked variant then
returns `some` of exactly the release-semantics row sequence.  (Release
builds wrap instead of panicking, so `hexdump_buf` itself is total on all
inputs.) -/
theorem hexdump_buf_infallible (cfg : Config) (buf : List Byte)
    (h : cfg.cols = 0 ∨ buf = [] ∨ cfg.offs + buf.length < USIZE) :
    hexdump_bufChecked cfg buf = some (hexdump_buf cfg buf) := by
  by_cases hc : cfg.cols = 0
  · rw [hexdump_bufChecked, if_pos hc, hexdump_buf, if_pos hc]
  · rw [hexdump_bufChecked, if_neg hc, hexdump_buf, if_neg hc, chunksChecked, if_neg hc]
    rw [Option.some_bind]
    rcases h with h | h | h
    · exact absurd h hc
    · subst h
      rfl
    · have hsum : (((chunks cfg.cols buf).map List.length).sum) = buf.length :=
        chunks_sum cfg.cols buf
      exact hexdumpLoopChecked_eq_some cfg.cols (chunks cfg.cols buf)
        (fun b hb => chunks_mem_le cfg.cols (by omega) buf b hb) cfg.offs
        (by omega)

/-- Witness for C7 (amended) at `cols = 16`, `offs = 0` on a 3-byte
input. -/
theorem hexdump_buf_infallible_witness :
    hexdump_bufChecked { cols := 16, offs := 0 } [1, 2, 3]
      = some (hexdump_buf { cols := 16, offs := 0 } [1, 2, 3]) :=
  hexdump_buf_infallible { cols := 16, offs := 0 } [1, 2, 3] (by decide)

/-- C9: `hexdump` is exactly the composition of `asbuf` (view the value as
bytes) and `hexdump_buf` (render): the sink receives the identical
argument sequence. -/
theorem hexdump_eq_hexdump_buf_asbuf (cfg : Config) (v : SizedValue) :
    hexdump cfg v = hexdump_buf cfg (asbuf v) :=
  rfl

/-- C10: `hexdump_buf` is deterministic: equal configuration fields and
equal byte sequences give the identical sequence of sink-argument
triples. -/
theorem hexdump_buf_deterministic (c1 c2 : Config) (b1 b2 : List Byte)
    (hcols : c1.cols = c2.cols) (hoffs : c1.offs = c2.offs) (hbuf : b1 = b2) :
    hexdump_buf c1 b1 = hexdump_buf c2 b2 := by
  have hc : c1 = c2 := by
    cases c1
    cases c2
    simp_all
  rw [hc, hbuf]

/-- Witness for C10: two syntactically different but field-equal
configurations on the same buffer. -/
theorem hexdump_buf_deterministic_witness :
    hexdump_buf { cols := 16, offs := 0 } [5] = hexdump_buf Config.default [5] :=
  hexdump_buf_deterministic { cols := 16, offs := 0 } Config.default [5] [5] rfl rfl rfl
